import Mathlib

/-!
Verification of the go-postgresql benchmark harness.

The repository contains three driver variants of the same phased CRUD
benchmark (lib/pq raw statements, pgx batched wire protocol, GORM ORM).
This file gives a shallow embedding of the parts the specification talks
about: the workload configuration, the synthetic record generator
(`fmt.Sprintf("User_%06d", j+1)` and friends), the batch chunking loops,
the table-level semantics of the SQL statements the programs issue, the
timing bookkeeping, and the control flow on store errors (`log.Fatalf`
versus `log.Printf`).  Go strings are modelled as `List Char` (all
characters involved are ASCII, so this is the byte sequence).
-/

/-- `config/env.go`: volume parameters of one benchmark run. -/
structure DatabaseConfig where
  initialUsersCount : Nat
  batchSize : Nat
  updateCount : Nat
  deleteCount : Nat
  newUsersCount : Nat
deriving Repr, DecidableEq

/-- `config/env.go` `DefaultConfig`. -/
def DefaultConfig : DatabaseConfig :=
  { initialUsersCount := 50000
    batchSize := 5000
    updateCount := 5000
    deleteCount := 2500
    newUsersCount := 10000 }

/-- One decimal digit as a character, as produced by Go's `%d` verb. -/
def digitChar (d : Nat) : Char :=
  match d with
  | 0 => '0' | 1 => '1' | 2 => '2' | 3 => '3' | 4 => '4'
  | 5 => '5' | 6 => '6' | 7 => '7' | 8 => '8' | 9 => '9'
  | _ => '!'

/-- Decimal digit string of `n`, most significant first: the output of
Go's `%d` verb. -/
def decDigits (n : Nat) : List Char :=
  if _h : n < 10 then [digitChar n]
  else decDigits (n / 10) ++ [digitChar (n % 10)]
  decreasing_by exact Nat.div_lt_self (by omega) (by omega)

/-- Go's `%06d` verb: the decimal digits of `n`, left-padded with `'0'`
to at least six characters. -/
def pad6 (n : Nat) : List Char :=
  List.replicate (6 - (decDigits n).length) '0' ++ decDigits n

/-- Numeric value of a digit character (inverse of `digitChar`). -/
def digitVal (c : Char) : Nat :=
  match c with
  | '0' => 0 | '1' => 1 | '2' => 2 | '3' => 3 | '4' => 4
  | '5' => 5 | '6' => 6 | '7' => 7 | '8' => 8 | '9' => 9
  | _ => 0

/-- Value of a digit string read left to right. -/
def parseVal (l : List Char) : Nat :=
  l.foldl (fun a c => a * 10 + digitVal c) 0

theorem digitVal_digitChar {d : Nat} (h : d < 10) : digitVal (digitChar d) = d := by
  interval_cases d <;> rfl

theorem parseVal_append (l₁ l₂ : List Char) :
    parseVal (l₁ ++ l₂) = l₂.foldl (fun a c => a * 10 + digitVal c) (parseVal l₁) := by
  simp [parseVal, List.foldl_append]

theorem foldl_digit_shift (l : List Char) (a : Nat) :
    l.foldl (fun a c => a * 10 + digitVal c) a = a * 10 ^ l.length + parseVal l := by
  induction l generalizing a with
  | nil => simp [parseVal]
  | cons c l ih =>
    simp only [List.foldl_cons, List.length_cons]
    rw [ih (a * 10 + digitVal c)]
    have h2 : parseVal (c :: l) = digitVal c * 10 ^ l.length + parseVal l := by
      simp only [parseVal, List.foldl_cons, Nat.zero_mul, Nat.zero_add]
      exact ih (digitVal c)
    rw [h2]
    ring

/-- Printing then parsing a number is the identity. -/
theorem parseVal_decDigits (n : Nat) : parseVal (decDigits n) = n := by
  induction n using decDigits.induct with
  | case1 n h => simp [decDigits, h, parseVal, digitVal_digitChar h]
  | case2 n h ih =>
    rw [decDigits.eq_def, dif_neg h]
    rw [parseVal_append, ih]
    simp only [List.foldl_cons, List.foldl_nil]
    rw [digitVal_digitChar (Nat.mod_lt _ (by omega))]
    omega

theorem parseVal_replicate_zero (k : Nat) (l : List Char) :
    parseVal (List.replicate k '0' ++ l) = parseVal l := by
  induction k with
  | zero => simp
  | succ k ih => simpa [List.replicate_succ, parseVal, digitVal] using ih

/-- Zero-padded decimal printing is injective: distinct indices give
distinct padded strings. -/
theorem pad6_injective : Function.Injective pad6 := by
  intro m n h
  have := congrArg parseVal h
  rwa [pad6, pad6, parseVal_replicate_zero, parseVal_replicate_zero,
    parseVal_decDigits, parseVal_decDigits] at this

/-- Seed-phase user name, `cmd/pq/main.go:78`:
`fmt.Sprintf("User_%06d", j+1)`. -/
def seedName (j : Nat) : List Char := "User_".data ++ pad6 (j + 1)

/-- Seed-phase email, `cmd/pq/main.go:79`:
`fmt.Sprintf("user%06d@example.com", j+1)`. -/
def seedEmail (j : Nat) : List Char :=
  "user".data ++ pad6 (j + 1) ++ "@example.com".data

/-- Create-phase user name, `cmd/pq/main.go:185`:
`fmt.Sprintf("New_User_%06d", j+1)`. -/
def createName (j : Nat) : List Char := "New_User_".data ++ pad6 (j + 1)

/-- Create-phase email, `cmd/pq/main.go:186`:
`fmt.Sprintf("newuser%06d@example.com", j+1)`. -/
def createEmail (j : Nat) : List Char :=
  "newuser".data ++ pad6 (j + 1) ++ "@example.com".data

/-- A generated record as handed to the store: name, email and the
creation timestamp. -/
structure GenRecord where
  name : List Char
  email : List Char
  createdAt : Nat
deriving Repr, DecidableEq

/-- The synthetic record generator of the Seed phase,
`cmd/pq/main.go:77-83`: for each `j` in `[startIndex, startIndex+count)`
it produces the name and email for `j` together with the timestamp
`time.Now()`.  The wall clock at the moment of the call is the explicit
parameter `now`. -/
def generate (now : Nat) (startIndex count : Nat) : List GenRecord :=
  (List.range count).map fun k =>
    { name := seedName (startIndex + k)
      email := seedEmail (startIndex + k)
      createdAt := now }

theorem seedEmail_injective : Function.Injective seedEmail := by
  intro j k h
  simp only [seedEmail, List.append_assoc, List.append_cancel_left_eq,
    List.append_cancel_right_eq] at h
  exact Nat.succ_injective (pad6_injective h)

theorem createEmail_injective : Function.Injective createEmail := by
  intro j k h
  simp only [createEmail, List.append_assoc, List.append_cancel_left_eq,
    List.append_cancel_right_eq] at h
  exact Nat.succ_injective (pad6_injective h)

theorem seedEmail_ne_createEmail (j k : Nat) : seedEmail j ≠ createEmail k := by
  intro h
  have := congrArg List.head? h
  simp [seedEmail, createEmail] at this

/-- All emails generated by the Seed phase: the loops in
`cmd/pq/main.go:60-91` run `j` over `[0, initialUsersCount)` and emit
`seedEmail j` for each. -/
def seedPhaseEmails (cfg : DatabaseConfig) : List (List Char) :=
  (List.range cfg.initialUsersCount).map seedEmail

/-- All emails generated by the Create phase: the loops in
`cmd/pq/main.go:167-198` run `j` over `[0, newUsersCount)` and emit
`createEmail j` for each. -/
def createPhaseEmails (cfg : DatabaseConfig) : List (List Char) :=
  (List.range cfg.newUsersCount).map createEmail

/-- C6 counterexample: the records produced by two `generate` calls with
the same `(startIndex, count)` but made at different wall-clock instants
differ, because each record's `createdAt` field is `time.Now()`. -/
theorem generate_differs_across_calls : generate 0 0 3 ≠ generate 1 0 3 := by
  intro h
  have h0 := congrArg (fun l => l.head?) h
  simp [generate, List.range_succ_eq_map, GenRecord.mk.injEq] at h0

/-- C6 amended: the name and email fields of the generated records are a
pure function of `(startIndex, count)` — only the `createdAt` field
depends on the wall clock. -/
theorem generate_name_email_deterministic (t₁ t₂ startIndex count : Nat) :
    (generate t₁ startIndex count).map (fun r => (r.name, r.email)) =
      (generate t₂ startIndex count).map (fun r => (r.name, r.email)) := by
  simp [generate, List.map_map, Function.comp]

/-- C9: within one run, the emails of all Seed-phase records and all
Create-phase records are pairwise distinct: the padded index is injective
and the `user`/`newuser` literal prefixes never collide, so no generated
batch can violate the store's unique-email constraint. -/
theorem seed_create_emails_nodup (cfg : DatabaseConfig) :
    (seedPhaseEmails cfg ++ createPhaseEmails cfg).Nodup := by
  rw [List.nodup_append]
  refine ⟨List.Nodup.map seedEmail_injective (List.nodup_range _),
    List.Nodup.map createEmail_injective (List.nodup_range _), ?_⟩
  intro a ha hb
  simp only [seedPhaseEmails, List.mem_map, List.mem_range] at ha
  simp only [createPhaseEmails, List.mem_map, List.mem_range] at hb
  obtain ⟨j, -, hj⟩ := ha
  obtain ⟨k, -, hk⟩ := hb
  exact seedEmail_ne_createEmail j k (hj.trans hk.symm)

/-- Seed-phase batching loop, `cmd/pq/main.go:60-65`: starting from
index `i`, while `i < count` emit the index interval
`[i, min (i+batchSize) count)` and advance `i` by `batchSize`.  For
`batchSize = 0` the Go loop would not terminate; the model returns no
batches in that (excluded) case. -/
def seedBatches (count b i : Nat) : List (List Nat) :=
  if h : 0 < b ∧ i < count then
    List.range' i (min (i + b) count - i) :: seedBatches count b (i + b)
  else []
  termination_by count - i
  decreasing_by omega

/-- Create-phase batching loop, `cmd/pq/main.go:167-172`: textually the
same loop as the Seed phase, run over `[0, newUsersCount)`. -/
def createBatches (count b i : Nat) : List (List Nat) :=
  if h : 0 < b ∧ i < count then
    List.range' i (min (i + b) count - i) :: createBatches count b (i + b)
  else []
  termination_by count - i
  decreasing_by omega

/-- The sequence of record indices the Create phase generates, in order:
the batches of its loop, flattened. -/
def createBatchIndices (cfg : DatabaseConfig) : List Nat :=
  (createBatches cfg.newUsersCount cfg.batchSize 0).flatten

theorem createBatches_eq_seedBatches (count b i : Nat) :
    createBatches count b i = seedBatches count b i := by
  induction i using createBatches.induct count b with
  | case1 i h ih =>
    rw [createBatches.eq_def, seedBatches.eq_def, dif_pos h, dif_pos h, ih]
  | case2 i h =>
    rw [createBatches.eq_def, seedBatches.eq_def, dif_neg h, dif_neg h]

theorem seedBatches_nil {count b i : Nat} (h : ¬(0 < b ∧ i < count)) :
    seedBatches count b i = [] := by
  rw [seedBatches.eq_def, dif_neg h]

/-- Invariant of the batching loop from an arbitrary start index. -/
theorem seedBatches_stats : ∀ count b : Nat, 0 < b → ∀ i : Nat,
    ((seedBatches count b i).map List.length).sum = count - i ∧
    (seedBatches count b i).length = (count - i + b - 1) / b ∧
    (∀ s ∈ ((seedBatches count b i).map List.length).dropLast, s = b) ∧
    (∀ s ∈ (seedBatches count b i).map List.length, s ≤ b) := by
  intro count b hb i
  induction i using seedBatches.induct count b with
  | case2 i h =>
    rw [seedBatches_nil h]
    have hic : count ≤ i := by
      by_contra hc
      exact h ⟨hb, by omega⟩
    have h0 : count - i = 0 := by omega
    refine ⟨by simp [h0], ?_, by simp, by simp⟩
    simp [h0, Nat.div_eq_of_lt (show b - 1 < b by omega)]
  | case1 i h ih =>
    obtain ⟨ihsum, ihlen, ihdrop, ihle⟩ := ih
    rw [seedBatches.eq_def, dif_pos h]
    have hkey : ∀ x : Nat, (x + b) / b = x / b + 1 := fun x => Nat.add_div_right x hb
    refine ⟨?_, ?_, ?_, ?_⟩
    · simp only [List.map_cons, List.sum_cons, List.length_range', ihsum]
      omega
    · simp only [List.length_cons, ihlen]
      rcases le_or_lt count (i + b) with hc | hc
      · have h1 : count - (i + b) = 0 := by omega
        have h2 : count - i + b - 1 = (count - i - 1) + b := by omega
        rw [h1, h2, hkey, Nat.div_eq_of_lt (show count - i - 1 < b by omega)]
        simp [Nat.div_eq_of_lt (show b - 1 < b by omega)]
      · have h2 : count - i + b - 1 = (count - (i + b) + b - 1) + b := by omega
        rw [h2, hkey]
    · rcases le_or_lt count (i + b) with hc | hc
      · rw [seedBatches_nil (by omega)]
        simp
      · have hcons : seedBatches count b (i + b) ≠ [] := by
          rw [seedBatches.eq_def, dif_pos (by omega)]
          simp
        obtain ⟨x, xs, hx⟩ := List.exists_cons_of_ne_nil hcons
        rw [hx]
        rw [hx] at ihdrop
        simp only [List.map_cons, List.dropLast_cons₂, List.mem_cons]
        rintro s (rfl | hs)
        · simp only [List.length_range']
          omega
        · exact ihdrop s hs
    · simp only [List.map_cons, List.mem_cons]
      rintro s (rfl | hs)
      · simp only [List.length_range']
        omega
      · exact ihle s hs

/-- C7: for `batchSize > 0`, the chunking of `[0, count)` used by the
Seed and Create phases yields `⌈count/batchSize⌉` chunks whose sizes sum
to `count`; every chunk except possibly the last has size exactly
`batchSize` and no chunk is larger. -/
theorem chunking_spec (count b : Nat) (hb : 0 < b) :
    ((seedBatches count b 0).map List.length).length = (count + b - 1) / b ∧
    ((seedBatches count b 0).map List.length).sum = count ∧
    (∀ s ∈ ((seedBatches count b 0).map List.length).dropLast, s = b) ∧
    (∀ s ∈ (seedBatches count b 0).map List.length, s ≤ b) := by
  obtain ⟨hsum, hlen, hdrop, hle⟩ := seedBatches_stats count b hb 0
  exact ⟨by simpa using hlen, by simpa using hsum, hdrop, hle⟩

/-- Witness for C7 at `count = 7`, `batchSize = 3`. -/
theorem chunking_spec_witness :
    ((seedBatches 7 3 0).map List.length).sum = 7 :=
  (chunking_spec 7 3 (by decide)).2.1

/-- The batches of the loop cover exactly the interval `[i, count)`. -/
theorem seedBatches_flatten (count b : Nat) (hb : 0 < b) : ∀ i,
    (seedBatches count b i).flatten = List.range' i (count - i) := by
  intro i
  induction i using seedBatches.induct count b with
  | case2 i h =>
    have hic : count ≤ i := by
      by_contra hc
      exact h ⟨hb, by omega⟩
    rw [seedBatches_nil h]
    simp [show count - i = 0 by omega]
  | case1 i h ih =>
    rw [seedBatches.eq_def, dif_pos h]
    simp only [List.flatten_cons, ih]
    rcases le_or_lt (i + b) count with hc | hc
    · have hmin : min (i + b) count - i = b := by omega
      rw [hmin, show count - i = count - (i + b) + b by omega]
      simpa using List.range'_append i b (count - (i + b)) 1
    · simp [show count - (i + b) = 0 by omega,
        show min (i + b) count - i = count - i by omega]

theorem createBatchIndices_eq_range (cfg : DatabaseConfig)
    (hb : 0 < cfg.batchSize) :
    createBatchIndices cfg = List.range cfg.newUsersCount := by
  rw [createBatchIndices, createBatches_eq_seedBatches,
    seedBatches_flatten _ _ hb, List.range_eq_range']
  simp

/-- C3 counterexample: with `initialUsersCount = 2`, `batchSize = 1` and
`newUsersCount = 1`, the Create phase generates the record for index 0
(name `New_User_000001`), not for the claimed interval
`[initialCount, initialCount+newCount) = {2}`: its loop restarts `j` at
0 rather than continuing at `initialUsersCount`. -/
theorem create_indices_not_shifted :
    createBatchIndices ⟨2, 1, 0, 0, 1⟩ ≠ List.range' 2 1 := by
  rw [createBatchIndices_eq_range ⟨2, 1, 0, 0, 1⟩ (by decide)]
  decide

/-- C3 amended: the Create phase generates records for exactly the index
interval `[0, newCount)` (not `[initialCount, initialCount+newCount)`),
partitioned into batches of `batchSize` by the same loop with which the
Seed phase partitions `[0, initialCount)`, and its `New_User_`/`newuser`
name and email prefixes never produce a Seed-phase name or email. -/
theorem create_phase_partition (cfg : DatabaseConfig)
    (hb : 0 < cfg.batchSize) :
    createBatchIndices cfg = List.range cfg.newUsersCount ∧
    (∀ count i, createBatches count cfg.batchSize i =
      seedBatches count cfg.batchSize i) ∧
    (∀ j k, createName j ≠ seedName k) ∧
    (∀ j k, createEmail j ≠ seedEmail k) := by
  refine ⟨createBatchIndices_eq_range cfg hb,
    fun count i => createBatches_eq_seedBatches count cfg.batchSize i,
    ?_, fun j k hjk => seedEmail_ne_createEmail k j hjk.symm⟩
  intro j k hjk
  have := congrArg List.head? hjk
  simp [createName, seedName] at this

/-- Witness for C3 (amended) at a concrete configuration. -/
theorem create_phase_partition_witness :
    createBatchIndices ⟨2, 1, 0, 0, 1⟩ = List.range 1 :=
  (create_phase_partition ⟨2, 1, 0, 0, 1⟩ (by decide)).1

/-- A row of the `users` table (schema: `SERIAL` id, name, unique email,
creation timestamp). -/
structure User where
  id : Nat
  name : List Char
  email : List Char
  createdAt : Nat
deriving Repr, DecidableEq

/-- `SELECT id FROM users OFFSET $2 LIMIT $1` (`cmd/pq/main.go:109` with
offset 0, `cmd/pq/main.go:138` with offset 1000; same queries in the pgx
variant, `Limit`/`Offset` scopes in the GORM variants).  None of these
queries carries an ordering clause, so the rows come back in the store's
current row order, modelled by the order of the table list. -/
def selectIds (table : List User) (limit offset : Nat) : List Nat :=
  ((table.drop offset).take limit).map (·.id)

/-- Replacement name of the raw-statement bulk update,
`config/env.go` PQ section line 153: `"Updated_User_Bulk_PQ"`. -/
def updatedNamePQ : List Char := "Updated_User_Bulk_PQ".data

/-- Replacement name of the ORM bulk update, `src/unnamed/part_000:101`:
`"Updated_User_Bulk"`. -/
def updatedNameGORM : List Char := "Updated_User_Bulk".data

/-- Replacement name of the batched-protocol per-row update,
`src/unnamed/part_001:320`: `fmt.Sprintf("Updated_User_%06d", userID)`. -/
def updatedNamePGX (id : Nat) : List Char := "Updated_User_".data ++ pad6 id

/-- Raw-statement Update phase mutation, `config/env.go` PQ section
lines 152-165: if any ids were selected, one
`UPDATE users SET name = $1 WHERE id IN (...)` statement sets the name
of every selected row to the fixed literal. -/
def bulkUpdateNamesPQ (table : List User) (ids : List Nat) : List User :=
  if 0 < ids.length then
    table.map fun r =>
      if ids.contains r.id then { r with name := updatedNamePQ } else r
  else table

/-- ORM bulk Update phase mutation, `src/unnamed/part_000:100-103`: one
`Where("id IN ?", ids).Update("name", ...)` statement. -/
def bulkUpdateNamesGORM (table : List User) (ids : List Nat) : List User :=
  table.map fun r =>
    if ids.contains r.id then { r with name := updatedNameGORM } else r

/-- Batched-protocol Update phase mutation,
`src/unnamed/part_001:318-329`: one
`UPDATE users SET name = $1 WHERE id = $2` statement per selected id,
issued in order.  (`cmd/pq/main.go:123-131` is the same per-row loop
with the same name format.) -/
def updateUsersPGX (table : List User) (ids : List Nat) : List User :=
  ids.foldl
    (fun t userID =>
      t.map fun r =>
        if r.id == userID then { r with name := updatedNamePGX userID } else r)
    table

theorem updatedNamePGX_injective : Function.Injective updatedNamePGX := by
  intro a b h
  simp only [updatedNamePGX, List.append_cancel_left_eq] at h
  exact pad6_injective h

/-- The per-id update loop is equivalent to a single pass that renames
every row whose id occurs in `ids`. -/
theorem updateUsersPGX_eq_map (table : List User) (ids : List Nat) :
    updateUsersPGX table ids =
      table.map fun r =>
        if ids.contains r.id then { r with name := updatedNamePGX r.id } else r := by
  induction ids generalizing table with
  | nil => simp [updateUsersPGX]
  | cons a as ih =>
    simp only [updateUsersPGX, List.foldl_cons] at *
    rw [ih, List.map_map]
    refine List.map_congr_left fun r _ => ?_
    by_cases h1 : r.id = a
    · subst h1
      simp only [Function.comp, beq_self_eq_true, if_true, List.contains_cons,
        Bool.true_or]
      by_cases h2 : as.contains r.id <;> simp [h2]
    · simp only [Function.comp, beq_iff_eq, h1, if_false, List.contains_cons]
      by_cases h2 : as.contains r.id <;>
        simp [h2, beq_iff_eq, h1]

/-- A one-row table used to compare the variants. -/
def oneRowTable : List User := [⟨1, [], [], 0⟩]

/-- A two-row table used to compare the variants. -/
def twoRowTable : List User := [⟨1, [], [], 0⟩, ⟨2, [], [], 0⟩]

/-- C4 counterexample: on the same one-row table and the same selected
id set, the raw-statement and ORM bulk updates produce different tables
(`Updated_User_Bulk_PQ` versus `Updated_User_Bulk`), and the
batched-protocol variant does not use one fixed replacement literal at
all: it gives two selected rows two different names. -/
theorem update_variants_diverge :
    bulkUpdateNamesPQ oneRowTable [1] ≠ bulkUpdateNamesGORM oneRowTable [1] ∧
    (updateUsersPGX twoRowTable [1, 2]).map (·.name) =
      [updatedNamePGX 1, updatedNamePGX 2] ∧
    updatedNamePGX 1 ≠ updatedNamePGX 2 := by
  refine ⟨by decide, rfl, fun h => ?_⟩
  have := updatedNamePGX_injective h
  omega

/-- C4 amended: the three variants rename exactly the same selected rows
and agree on every row's id, email and creation timestamp, but the
replacement names differ per variant — the raw-statement variant uses
the fixed literal `Updated_User_Bulk_PQ`, the ORM bulk variant the fixed
literal `Updated_User_Bulk`, and the batched-protocol variant the
per-row name `Updated_User_` + padded id — so the outward store state is
not identical across variants. -/
theorem update_variants_behavior (table : List User) (ids : List Nat) :
    updateUsersPGX table ids =
      (table.map fun r =>
        if ids.contains r.id then { r with name := updatedNamePGX r.id } else r) ∧
    bulkUpdateNamesPQ table ids =
      (table.map fun r =>
        if ids.contains r.id then { r with name := updatedNamePQ } else r) ∧
    ((bulkUpdateNamesPQ table ids).map fun r => (r.id, r.email, r.createdAt)) =
      ((bulkUpdateNamesGORM table ids).map fun r => (r.id, r.email, r.createdAt)) ∧
    ((bulkUpdateNamesPQ table ids).map fun r => (r.id, r.email, r.createdAt)) =
      ((updateUsersPGX table ids).map fun r => (r.id, r.email, r.createdAt)) := by
  have hpq : bulkUpdateNamesPQ table ids =
      (table.map fun r =>
        if ids.contains r.id then { r with name := updatedNamePQ } else r) := by
    rcases ids with - | ⟨a, as⟩
    · simp [bulkUpdateNamesPQ]
    · simp [bulkUpdateNamesPQ]
  refine ⟨updateUsersPGX_eq_map table ids, hpq, ?_, ?_⟩
  · rw [hpq, bulkUpdateNamesGORM, List.map_map, List.map_map]
    refine List.map_congr_left fun r _ => ?_
    by_cases h : r.id ∈ ids <;> simp [h]
  · rw [hpq, updateUsersPGX_eq_map, List.map_map, List.map_map]
    refine List.map_congr_left fun r _ => ?_
    by_cases h : r.id ∈ ids <;> simp [h]

/-- A map that preserves a predicate and fixes its satisfying elements
leaves the filtered sublist unchanged. -/
theorem filter_map_fixed (f : User → User) (p : User → Bool)
    (hp : ∀ r, p (f r) = p r) (hfix : ∀ r, p r = true → f r = r) :
    ∀ table : List User, (table.map f).filter p = table.filter p := by
  intro table
  induction table with
  | nil => rfl
  | cons r t ih =>
    simp only [List.map_cons, List.filter_cons, hp r]
    by_cases hr : p r = true
    · simp [hr, hfix r hr, ih]
    · simp only [Bool.not_eq_true] at hr
      simp [hr, ih]

/-- C10: the Update phase's rename — both the single
`UPDATE ... WHERE id IN (...)` of the raw-statement variant and the
per-row loop of `cmd/pq/main.go:123-131` — changes only the name column:
ids, emails and creation timestamps of all rows are unchanged, and every
row whose id is not in the target set is entirely unchanged. -/
theorem bulk_update_frame (table : List User) (ids : List Nat) :
    ((bulkUpdateNamesPQ table ids).map fun r => (r.id, r.email, r.createdAt)) =
      (table.map fun r => (r.id, r.email, r.createdAt)) ∧
    (bulkUpdateNamesPQ table ids).filter (fun r => !ids.contains r.id) =
      table.filter (fun r => !ids.contains r.id) ∧
    ((updateUsersPGX table ids).map fun r => (r.id, r.email, r.createdAt)) =
      (table.map fun r => (r.id, r.email, r.createdAt)) ∧
    (updateUsersPGX table ids).filter (fun r => !ids.contains r.id) =
      table.filter (fun r => !ids.contains r.id) := by
  have hpq : bulkUpdateNamesPQ table ids =
      (table.map fun r =>
        if ids.contains r.id then { r with name := updatedNamePQ } else r) := by
    rcases ids with - | ⟨a, as⟩
    · simp [bulkUpdateNamesPQ]
    · simp [bulkUpdateNamesPQ]
  refine ⟨?_, ?_, ?_, ?_⟩
  · rw [hpq, List.map_map]
    refine List.map_congr_left fun r _ => ?_
    by_cases h : r.id ∈ ids <;> simp [h]
  · rw [hpq]
    refine filter_map_fixed _ _ (fun r => ?_) (fun r hr => ?_) table
    · by_cases h : r.id ∈ ids <;> simp [h]
    · have hnot : r.id ∉ ids := by simpa using hr
      simp [hnot]
  · rw [updateUsersPGX_eq_map, List.map_map]
    refine List.map_congr_left fun r _ => ?_
    by_cases h : r.id ∈ ids <;> simp [h]
  · rw [updateUsersPGX_eq_map]
    refine filter_map_fixed _ _ (fun r => ?_) (fun r hr => ?_) table
    · by_cases h : r.id ∈ ids <;> simp [h]
    · have hnot : r.id ∉ ids := by simpa using hr
      simp [hnot]

/-- A table whose row order is not ascending by id (as happens in the
real store once updated rows have been rewritten behind the untouched
ones). -/
def unorderedTable : List User := [⟨2, [], [], 0⟩, ⟨1, [], [], 0⟩]

/-- A table whose row order is ascending by id. -/
def sortedTable : List User := [⟨1, [], [], 0⟩, ⟨2, [], [], 0⟩, ⟨3, [], [], 0⟩]

/-- C5 counterexample: the id-selection queries carry no `ORDER BY`, so
the returned identifiers inherit the store's row order; on a store whose
rows are not in ascending id order the returned sequence is not sorted
by ascending identifier. -/
theorem selectIds_not_sorted :
    selectIds unorderedTable 2 0 = [2, 1] ∧
    ¬ (selectIds unorderedTable 2 0).Sorted (· < ·) := by
  constructor
  · rfl
  · intro h
    have h2 : (2 : Nat) < 1 := List.rel_of_sorted_cons h 1 (by simp)
    omega

/-- C5 amended: `selectIdentifiers(limit, offset)` returns at most
`limit` identifiers, obtained by skipping the first `offset` rows of the
store's current row order and keeping that order; the sequence is in
ascending identifier order only when the store's row order is. -/
theorem selectIds_spec (table : List User) (limit offset : Nat) :
    (selectIds table limit offset).length ≤ limit ∧
    selectIds table limit offset = ((table.map (·.id)).drop offset).take limit ∧
    ((table.map (·.id)).Sorted (· < ·) →
      (selectIds table limit offset).Sorted (· < ·)) := by
  refine ⟨?_, ?_, ?_⟩
  · simp only [selectIds, List.length_map]
    exact List.length_take_le _ _
  · simp [selectIds, List.map_take, List.map_drop]
  · intro hs
    have hsub : List.Sublist (((table.map (·.id)).drop offset).take limit)
        (table.map (·.id)) :=
      (List.take_sublist _ _).trans (List.drop_sublist _ _)
    have : (((table.map (·.id)).drop offset).take limit).Sorted (· < ·) :=
      List.Pairwise.sublist hsub hs
    simpa [selectIds, List.map_take, List.map_drop] using this

/-- Witness for C5 (amended) on a concrete ascending table. -/
theorem selectIds_spec_witness :
    (selectIds sortedTable 2 1).Sorted (· < ·) :=
  (selectIds_spec sortedTable 2 1).2.2 (by decide)

/-- A mutating statement issued to the store. -/
inductive StoreMutation where
  | deleteWhereIdIn : List Nat → StoreMutation
deriving Repr, DecidableEq

/-- Outcome of the Delete phase: the table afterwards, the count the
phase reports (`len(deleteIDs)`), and the mutating statements issued. -/
structure DeletePhaseResult where
  table : List User
  deletedCount : Nat
  muts : List StoreMutation
deriving Repr, DecidableEq

/-- Delete phase of the raw-statement variant, `config/env.go` PQ
section lines 172-200: select ids with
`SELECT id FROM users OFFSET 1000 LIMIT $1`; only when at least one id
came back, issue one `DELETE FROM users WHERE id IN (...)`; report
`len(deleteIDs)`. -/
def deletePhase (table : List User) (deleteCount : Nat) : DeletePhaseResult :=
  let deleteIDs := selectIds table deleteCount 1000
  if 0 < deleteIDs.length then
    { table := table.filter fun r => !deleteIDs.contains r.id
      deletedCount := deleteIDs.length
      muts := [StoreMutation.deleteWhereIdIn deleteIDs] }
  else
    { table := table, deletedCount := deleteIDs.length, muts := [] }

/-- A ten-row table (ids 1..10), the end-to-end example's store state at
the Delete phase. -/
def tenRowTable : List User := (List.range 10).map fun k => ⟨k + 1, [], [], 0⟩

/-- C8: a short selection is not an error — the Delete phase always
reports exactly the number of identifiers the selection returned, and
when the selection at offset 1000 comes back empty it issues no mutating
statement and leaves the table untouched, reporting 0. -/
theorem delete_phase_short_selection_ok (table : List User) (deleteCount : Nat) :
    (deletePhase table deleteCount).deletedCount =
      (selectIds table deleteCount 1000).length ∧
    (selectIds table deleteCount 1000 = [] →
      (deletePhase table deleteCount).muts = [] ∧
      (deletePhase table deleteCount).table = table ∧
      (deletePhase table deleteCount).deletedCount = 0) := by
  constructor
  · by_cases h : 0 < (selectIds table deleteCount 1000).length <;>
      simp [deletePhase, h]
  · intro he
    simp [deletePhase, he]

/-- Witness for C8 on the end-to-end example: a 10-row table with the
default-style offset 1000 selection returns nothing, and the phase is a
no-op reporting 0. -/
theorem delete_phase_short_selection_ok_witness :
    (deletePhase tenRowTable 2).muts = [] ∧
    (deletePhase tenRowTable 2).table = tenRowTable ∧
    (deletePhase tenRowTable 2).deletedCount = 0 :=
  (delete_phase_short_selection_ok tenRowTable 2).2 (by decide)

/-- Durations of the successive segments of one `cmd/pq/main.go` run:
connection setup (`sql.Open` + `Ping`, before any phase) and the seven
phases, in program order.  Logging between segments is modelled as
instantaneous. -/
structure RunDurations where
  connect : Nat
  reset : Nat
  seed : Nat
  readCount : Nat
  update : Nat
  delete : Nat
  create : Nat
  finalRead : Nat
deriving Repr, DecidableEq

/-- `totalStart := time.Now()` at `cmd/pq/main.go:32` — taken before the
connection is opened. -/
def totalStartT (_ : RunDurations) : Nat := 0

/-- `resetStart := time.Now()` at line 50, after `sql.Open` and `Ping`. -/
def resetStartT (d : RunDurations) : Nat := d.connect

def seedStartT (d : RunDurations) : Nat := resetStartT d + d.reset

def readStartT (d : RunDurations) : Nat := seedStartT d + d.seed

def updateStartT (d : RunDurations) : Nat := readStartT d + d.readCount

def deleteStartT (d : RunDurations) : Nat := updateStartT d + d.update

def createStartT (d : RunDurations) : Nat := deleteStartT d + d.delete

def finalReadStartT (d : RunDurations) : Nat := createStartT d + d.create

/-- The instant of the last `time.Since(totalStart)` at line 212. -/
def endT (d : RunDurations) : Nat := finalReadStartT d + d.finalRead

/-- `resetDuration := time.Since(resetStart)`, line 54. -/
def resetDuration (d : RunDurations) : Nat := (resetStartT d + d.reset) - resetStartT d

def seedDuration (d : RunDurations) : Nat := (seedStartT d + d.seed) - seedStartT d

def readDuration (d : RunDurations) : Nat := (readStartT d + d.readCount) - readStartT d

def updateDuration (d : RunDurations) : Nat := (updateStartT d + d.update) - updateStartT d

def deleteDuration (d : RunDurations) : Nat := (deleteStartT d + d.delete) - deleteStartT d

def createDuration (d : RunDurations) : Nat := (createStartT d + d.create) - createStartT d

def finalReadDuration (d : RunDurations) : Nat :=
  (finalReadStartT d + d.finalRead) - finalReadStartT d

/-- `totalDuration := time.Since(totalStart)`, line 212: wall clock from
before connection setup to the end of the final read. -/
def totalDuration (d : RunDurations) : Nat := endT d - totalStartT d

/-- C2 counterexample: with 5 time units of connection setup and one
unit per phase, the reported TOTAL TIME is 12 while the seven phase
durations sum to 7 — `totalStart` is taken before `sql.Open`, so the
total is not the sum of the recorded phase intervals. -/
theorem total_not_sum_of_phases :
    totalDuration ⟨5, 1, 1, 1, 1, 1, 1, 1⟩ ≠
      resetDuration ⟨5, 1, 1, 1, 1, 1, 1, 1⟩ + seedDuration ⟨5, 1, 1, 1, 1, 1, 1, 1⟩ +
        readDuration ⟨5, 1, 1, 1, 1, 1, 1, 1⟩ + updateDuration ⟨5, 1, 1, 1, 1, 1, 1, 1⟩ +
        deleteDuration ⟨5, 1, 1, 1, 1, 1, 1, 1⟩ + createDuration ⟨5, 1, 1, 1, 1, 1, 1, 1⟩ +
        finalReadDuration ⟨5, 1, 1, 1, 1, 1, 1, 1⟩ := by
  decide

/-- C2 amended: the reported TOTAL TIME equals the connection-setup time
plus the sum of the seven recorded phase durations — it is wall clock
across the whole process and in particular includes connection setup. -/
theorem total_duration_eq (d : RunDurations) :
    totalDuration d =
      d.connect + (resetDuration d + seedDuration d + readDuration d +
        updateDuration d + deleteDuration d + createDuration d +
        finalReadDuration d) := by
  simp only [totalDuration, endT, finalReadStartT, createStartT, deleteStartT,
    updateStartT, readStartT, seedStartT, resetStartT, totalStartT,
    resetDuration, seedDuration, readDuration, updateDuration, deleteDuration,
    createDuration, finalReadDuration]
  omega

/-- The seven phases of the run. -/
inductive Phase where
  | reset | seed | readCount | update | delete | create | finalReadCount
deriving Repr, DecidableEq

/-- How `cmd/pq/main.go` handles a failure of a store operation:
`log.Fatalf` exits the process, `log.Printf` logs and continues. -/
inductive Handler where
  | fatal
  | warn
deriving Repr, DecidableEq

/-- The store operations the run issues. -/
inductive OpKind where
  | truncate
  | beginTx
  | insertRow : Nat → OpKind
  | commitTx
  | countRows
  | selectIdsOp : Nat → Nat → OpKind
  | updateRow : Nat → OpKind
  | deleteRow : Nat → OpKind
deriving Repr, DecidableEq

/-- One store operation of the run together with its phase and the
handler the code installs on its error path. -/
structure PlannedOp where
  phase : Phase
  kind : OpKind
  handler : Handler
deriving Repr, DecidableEq

/-- The sequence of store operations of one `cmd/pq/main.go` run, with
the error handler each call site uses.  `updateIds`/`deleteIds` are the
identifier sequences the two selections returned.  Handlers per site:
reset (line 51), seed begin/prepare-exec/commit (67-87), both counts
(99, 205) and both selections (109, 138) use `log.Fatalf`; the per-row
update (126) and delete (154) statements and the create-phase row
inserts (188) use `log.Printf`; create begin/commit (174-193) use
`log.Fatalf`. -/
def pqPlan (cfg : DatabaseConfig) (updateIds deleteIds : List Nat) : List PlannedOp :=
  [⟨.reset, .truncate, .fatal⟩]
    ++ (((seedBatches cfg.initialUsersCount cfg.batchSize 0).map fun batch =>
          ⟨.seed, .beginTx, .fatal⟩ ::
            (batch.map fun j => ⟨.seed, .insertRow j, .fatal⟩)
              ++ [⟨.seed, .commitTx, .fatal⟩]).flatten)
    ++ [⟨.readCount, .countRows, .fatal⟩]
    ++ [⟨.update, .selectIdsOp cfg.updateCount 0, .fatal⟩]
    ++ (updateIds.map fun id => ⟨.update, .updateRow id, .warn⟩)
    ++ [⟨.delete, .selectIdsOp cfg.deleteCount 1000, .fatal⟩]
    ++ (deleteIds.map fun id => ⟨.delete, .deleteRow id, .warn⟩)
    ++ (((createBatches cfg.newUsersCount cfg.batchSize 0).map fun batch =>
          ⟨.create, .beginTx, .fatal⟩ ::
            (batch.map fun j => ⟨.create, .insertRow j, .warn⟩)
              ++ [⟨.create, .commitTx, .fatal⟩]).flatten)
    ++ [⟨.finalReadCount, .countRows, .fatal⟩]

/-- Executes the planned operations in order against a store that fails
exactly the operations whose position satisfies `failAt`.  A failed
operation handled by `log.Fatalf` exits the process: nothing after it is
issued.  A failed operation handled by `log.Printf` is recorded and
execution continues.  Returns the operations actually issued, each
paired with whether it failed. -/
def runPlan (failAt : Nat → Bool) : List PlannedOp → Nat → List (PlannedOp × Bool)
  | [], _ => []
  | op :: rest, n =>
    if failAt n then
      match op.handler with
      | .fatal => [(op, true)]
      | .warn => (op, true) :: runPlan failAt rest (n + 1)
    else (op, false) :: runPlan failAt rest (n + 1)

/-- In any executed plan, a failed fatally-handled operation is the last
operation issued. -/
theorem runPlan_fatal_last (failAt : Nat → Bool) :
    ∀ (plan : List PlannedOp) (n i : Nat) (op : PlannedOp),
      (runPlan failAt plan n)[i]? = some (op, true) →
      op.handler = Handler.fatal →
      i + 1 = (runPlan failAt plan n).length := by
  intro plan
  induction plan with
  | nil =>
    intro n i op hget
    simp [runPlan] at hget
  | cons op' rest ih =>
    intro n i op hget hfatal
    by_cases hf : failAt n
    · cases hh : op'.handler with
      | fatal =>
        rcases i with - | i
        · simp [runPlan, hf, hh]
        · simp [runPlan, hf, hh] at hget
      | warn =>
        rcases i with - | i
        · simp only [runPlan, hf, if_true, hh, List.getElem?_cons_zero,
            Option.some.injEq, Prod.mk.injEq] at hget
          rw [← hget.1, hh] at hfatal
          cases hfatal
        · simp only [runPlan, hf, if_true, hh, List.getElem?_cons_succ,
            List.length_cons] at hget ⊢
          have := ih (n + 1) i op hget hfatal
          omega
    · rcases i with - | i
      · simp [runPlan, hf] at hget
      · simp only [runPlan, hf, Bool.false_eq_true, if_false,
          List.getElem?_cons_succ, List.length_cons] at hget ⊢
        have := ih (n + 1) i op hget hfatal
        omega

/-- Every operation the plan performs in the Reset, Seed, ReadCount and
FinalReadCount phases is handled by `log.Fatalf`. -/
theorem pqPlan_handlers (cfg : DatabaseConfig) (updateIds deleteIds : List Nat) :
    ∀ op ∈ pqPlan cfg updateIds deleteIds,
      (op.phase = Phase.reset ∨ op.phase = Phase.seed ∨ op.phase = Phase.readCount ∨
        op.phase = Phase.finalReadCount) → op.handler = Handler.fatal := by
  intro op hmem hphase
  rw [pqPlan] at hmem
  rcases List.mem_append.mp hmem with h8 | hI
  rcases List.mem_append.mp h8 with h7 | hH
  rcases List.mem_append.mp h7 with h6 | hG
  rcases List.mem_append.mp h6 with h5 | hF
  rcases List.mem_append.mp h5 with h4 | hE
  rcases List.mem_append.mp h4 with h3 | hD
  rcases List.mem_append.mp h3 with h2 | hC
  rcases List.mem_append.mp h2 with hA | hB
  · rcases List.mem_cons.mp hA with rfl | hA
    · rfl
    · exact absurd hA (List.not_mem_nil _)
  · obtain ⟨l, hl, hop⟩ := List.mem_flatten.mp hB
    obtain ⟨batch, hb, rfl⟩ := List.mem_map.mp hl
    rcases List.mem_cons.mp hop with rfl | hop
    · rfl
    · rcases List.mem_append.mp hop with hop | hop
      · obtain ⟨j, hj, rfl⟩ := List.mem_map.mp hop
        rfl
      · rcases List.mem_cons.mp hop with rfl | hop
        · rfl
        · exact absurd hop (List.not_mem_nil _)
  · rcases List.mem_cons.mp hC with rfl | hC
    · rfl
    · exact absurd hC (List.not_mem_nil _)
  · rcases List.mem_cons.mp hD with rfl | hD
    · rfl
    · exact absurd hD (List.not_mem_nil _)
  · obtain ⟨id, hid, rfl⟩ := List.mem_map.mp hE
    rcases hphase with h | h | h | h <;> simp at h
  · rcases List.mem_cons.mp hF with rfl | hF
    · rfl
    · exact absurd hF (List.not_mem_nil _)
  · obtain ⟨id, hid, rfl⟩ := List.mem_map.mp hG
    rcases hphase with h | h | h | h <;> simp at h
  · obtain ⟨l, hl, hop⟩ := List.mem_flatten.mp hH
    obtain ⟨batch, hb, rfl⟩ := List.mem_map.mp hl
    rcases List.mem_cons.mp hop with rfl | hop
    · rfl
    · rcases List.mem_append.mp hop with hop | hop
      · obtain ⟨j, hj, rfl⟩ := List.mem_map.mp hop
        rcases hphase with h | h | h | h <;> simp at h
      · rcases List.mem_cons.mp hop with rfl | hop
        · rfl
        · exact absurd hop (List.not_mem_nil _)
  · rcases List.mem_cons.mp hI with rfl | hI
    · rfl
    · exact absurd hI (List.not_mem_nil _)

/-- The configuration of the C1 counterexample run: one seed row, batch
size one, two update targets, one delete target, one new row. -/
def c1Cfg : DatabaseConfig := ⟨1, 1, 2, 1, 1⟩

/-- Store failure injection for the C1 counterexample: exactly the
seventh store operation — the `UPDATE users SET name = $1 WHERE id = $2`
for the first selected id — fails. -/
def c1FailAt (n : Nat) : Bool := n == 6

/-- C1 counterexample: when the Update phase's first per-row `UPDATE`
statement fails with a store error (handled by `log.Printf`,
`cmd/pq/main.go:126`), the run does not abort: every remaining operation
of the Update phase and of all later phases (Delete, Create,
FinalReadCount) is still issued — the only failed operation lies in the
Update phase yet the issued trace is the entire plan. -/
theorem run_continues_after_update_error :
    ((runPlan c1FailAt (pqPlan c1Cfg [1, 2] [3]) 0).map Prod.fst =
        pqPlan c1Cfg [1, 2] [3]) ∧
    (((runPlan c1FailAt (pqPlan c1Cfg [1, 2] [3]) 0).filter fun p => p.2).map
        fun p => p.1.phase) = [Phase.update] := by
  have h1 : seedBatches 1 1 0 = [[0]] := by
    rw [seedBatches.eq_def, dif_pos (by omega : 0 < 1 ∧ 0 < 1),
      seedBatches_nil (by omega)]
    decide
  have h2 : createBatches 1 1 0 = [[0]] :=
    (createBatches_eq_seedBatches 1 1 0).trans h1
  have hp : pqPlan c1Cfg [1, 2] [3] =
      [⟨.reset, .truncate, .fatal⟩,
       ⟨.seed, .beginTx, .fatal⟩, ⟨.seed, .insertRow 0, .fatal⟩,
       ⟨.seed, .commitTx, .fatal⟩,
       ⟨.readCount, .countRows, .fatal⟩,
       ⟨.update, .selectIdsOp 2 0, .fatal⟩, ⟨.update, .updateRow 1, .warn⟩,
       ⟨.update, .updateRow 2, .warn⟩,
       ⟨.delete, .selectIdsOp 1 1000, .fatal⟩, ⟨.delete, .deleteRow 3, .warn⟩,
       ⟨.create, .beginTx, .fatal⟩, ⟨.create, .insertRow 0, .warn⟩,
       ⟨.create, .commitTx, .fatal⟩,
       ⟨.finalReadCount, .countRows, .fatal⟩] := by
    rw [pqPlan, show c1Cfg.initialUsersCount = 1 from rfl,
      show c1Cfg.batchSize = 1 from rfl, show c1Cfg.updateCount = 2 from rfl,
      show c1Cfg.deleteCount = 1 from rfl, show c1Cfg.newUsersCount = 1 from rfl,
      h1, h2]
    decide
  rw [hp]
  decide

/-- C1 amended: a store error aborts the run exactly at the call sites
handled by `log.Fatalf`: a failed fatally-handled operation is always
the last operation issued (nothing later in its phase or in any later
phase runs), and every operation of the Reset, Seed, ReadCount and
FinalReadCount phases is so handled; per-row Update and Delete statement
failures and Create-phase row-insert failures are logged and the run
continues. -/
theorem store_error_fatality (failAt : Nat → Bool) (cfg : DatabaseConfig)
    (updateIds deleteIds : List Nat) :
    (∀ n i op,
      (runPlan failAt (pqPlan cfg updateIds deleteIds) n)[i]? = some (op, true) →
      op.handler = Handler.fatal →
      i + 1 = (runPlan failAt (pqPlan cfg updateIds deleteIds) n).length) ∧
    (∀ op ∈ pqPlan cfg updateIds deleteIds,
      (op.phase = Phase.reset ∨ op.phase = Phase.seed ∨ op.phase = Phase.readCount ∨
        op.phase = Phase.finalReadCount) → op.handler = Handler.fatal) :=
  ⟨fun n i op => runPlan_fatal_last failAt (pqPlan cfg updateIds deleteIds) n i op,
   pqPlan_handlers cfg updateIds deleteIds⟩

/-- Witness for C1 (amended): a store that fails the very first
operation (the Reset truncate, handled by `log.Fatalf`) aborts the run
after exactly that one operation. -/
theorem store_error_fatality_witness :
    0 + 1 = (runPlan (fun _ => true) (pqPlan ⟨1, 1, 2, 1, 1⟩ [] []) 0).length :=
  (store_error_fatality (fun _ => true) ⟨1, 1, 2, 1, 1⟩ [] []).1 0 0
    ⟨Phase.reset, OpKind.truncate, Handler.fatal⟩ rfl rfl
